import Mathlib

/-!
# Verification of the EMPA header-file parser

Shallow embedding of `src/EMPA_Parse.py` (the EMPA header parser and its
cross-file aggregator).  Python strings are modelled as Lean `String`s
(operated on through their character lists), Python floats as exact
rationals extended with the special values `inf`/`-inf`/`nan`, and Python
values (strings, numbers, `None`, lists, dicts) as one inductive `PyVal`
whose dicts are insertion-ordered association lists, matching CPython's
dict semantics (updates keep the original position, new keys append).
-/

namespace EMPA

/-- Characters stripped by Python's `str.strip()` (ASCII whitespace set). -/
def pySpace (c : Char) : Bool :=
  c = ' ' || c = '\t' || c = '\n' || c = '\r' || c = '\x0b' || c = '\x0c'

/-- `str.strip()` on a character list. -/
def pstripL (l : List Char) : List Char :=
  ((l.dropWhile pySpace).reverse.dropWhile pySpace).reverse

/-- Python `s.strip()`. -/
def pstrip (s : String) : String := String.mk (pstripL s.toList)

/-- Python `s.lstrip(chars)`: drop leading characters belonging to `cs`. -/
def plstrip (cs : List Char) (s : String) : String :=
  String.mk (s.toList.dropWhile (fun c => cs.contains c))

/-- Python `s.rstrip(chars)`: drop trailing characters belonging to `cs`. -/
def prstrip (cs : List Char) (s : String) : String :=
  String.mk ((s.toList.reverse.dropWhile (fun c => cs.contains c)).reverse)

/-- ASCII lower-casing of one character (Python `str.lower` restricted to
the ASCII range, which covers every key compared in the source). -/
def charLower (c : Char) : Char :=
  if 65 ≤ c.toNat ∧ c.toNat ≤ 90 then Char.ofNat (c.toNat + 32) else c

/-- Python `s.lower()` (ASCII range). -/
def strLower (s : String) : String := String.mk (s.toList.map charLower)

/-- Python `s.startswith(p)`. -/
def strStarts (s p : String) : Bool := p.toList.isPrefixOf s.toList

/-- Python `needle in hay` on strings (substring containment). -/
def strHasSub (hay needle : String) : Bool :=
  (List.range (hay.toList.length + 1)).any
    (fun i => needle.toList.isPrefixOf (hay.toList.drop i))

/-- Code-point lexicographic comparison, as used by Python `sorted` on
strings. -/
def clistLt : List Char → List Char → Bool
  | [], [] => false
  | [], _ :: _ => true
  | _ :: _, [] => false
  | a :: as, b :: bs => if a < b then true else if b < a then false else clistLt as bs

/-- stable insertion into an ascending list. -/
def insSorted (x : String) : List String → List String
  | [] => [x]
  | y :: ys => if clistLt y.toList x.toList then y :: insSorted x ys else x :: y :: ys

/-- Python `sorted` on a list of strings (stable, ascending by code point). -/
def sortStrings : List String → List String
  | [] => []
  | x :: xs => insSorted x (sortStrings xs)

/-- Split a character list at the first occurrence of `c`
(Python `s.split(c, 1)`); `none` when `c` does not occur. -/
def splitFirstL (c : Char) : List Char → Option (List Char × List Char)
  | [] => Option.none
  | x :: xs =>
    if x = c then some ([], xs)
    else (splitFirstL c xs).map (fun p => (x :: p.1, p.2))

/-- Python `s.split(sep)` keeping empty fields, for a one-character
separator. -/
def splitAllL (c : Char) : List Char → List (List Char)
  | [] => [[]]
  | x :: xs =>
    if x = c then [] :: splitAllL c xs
    else match splitAllL c xs with
      | [] => [[x]]
      | t :: ts => (x :: t) :: ts

/-- Python `s.split(',')` as strings. -/
def splitCommaStr (s : String) : List String :=
  (splitAllL ',' s.toList).map String.mk

end EMPA

/-- Python numbers produced by `float(...)`: an exact rational for finite
decimal literals, plus the special values. (`nan` is compared structurally
here; no claim compares NaNs.) -/
inductive PyNum where
  | fin (q : ℚ)
  | inf
  | ninf
  | nan
deriving DecidableEq, Repr

/-- A Python runtime value as used by the parser: strings, numbers,
`None`, lists, and insertion-ordered dicts. -/
inductive PyVal where
  | str (s : String)
  | num (n : PyNum)
  | pynone
  | list (xs : List PyVal)
  | dict (xs : List (PyVal × PyVal))

mutual

/-- Decidable equality on `PyVal` (hand-rolled: the nested inductive is
not covered by deriving on this toolchain). -/
def pvDecEq : (a b : PyVal) → Decidable (a = b)
  | .str a, .str b =>
    match String.decEq a b with
    | isTrue h => isTrue (congrArg PyVal.str h)
    | isFalse h => isFalse (fun hh => h (PyVal.str.inj hh))
  | .str _, .num _ => isFalse (fun hh => PyVal.noConfusion hh)
  | .str _, .pynone => isFalse (fun hh => PyVal.noConfusion hh)
  | .str _, .list _ => isFalse (fun hh => PyVal.noConfusion hh)
  | .str _, .dict _ => isFalse (fun hh => PyVal.noConfusion hh)
  | .num _, .str _ => isFalse (fun hh => PyVal.noConfusion hh)
  | .num a, .num b =>
    match decEq a b with
    | isTrue h => isTrue (congrArg PyVal.num h)
    | isFalse h => isFalse (fun hh => h (PyVal.num.inj hh))
  | .num _, .pynone => isFalse (fun hh => PyVal.noConfusion hh)
  | .num _, .list _ => isFalse (fun hh => PyVal.noConfusion hh)
  | .num _, .dict _ => isFalse (fun hh => PyVal.noConfusion hh)
  | .pynone, .str _ => isFalse (fun hh => PyVal.noConfusion hh)
  | .pynone, .num _ => isFalse (fun hh => PyVal.noConfusion hh)
  | .pynone, .pynone => isTrue rfl
  | .pynone, .list _ => isFalse (fun hh => PyVal.noConfusion hh)
  | .pynone, .dict _ => isFalse (fun hh => PyVal.noConfusion hh)
  | .list _, .str _ => isFalse (fun hh => PyVal.noConfusion hh)
  | .list _, .num _ => isFalse (fun hh => PyVal.noConfusion hh)
  | .list _, .pynone => isFalse (fun hh => PyVal.noConfusion hh)
  | .list xs, .list ys =>
    match pvlDecEq xs ys with
    | isTrue h => isTrue (congrArg PyVal.list h)
    | isFalse h => isFalse (fun hh => h (PyVal.list.inj hh))
  | .list _, .dict _ => isFalse (fun hh => PyVal.noConfusion hh)
  | .dict _, .str _ => isFalse (fun hh => PyVal.noConfusion hh)
  | .dict _, .num _ => isFalse (fun hh => PyVal.noConfusion hh)
  | .dict _, .pynone => isFalse (fun hh => PyVal.noConfusion hh)
  | .dict _, .list _ => isFalse (fun hh => PyVal.noConfusion hh)
  | .dict xs, .dict ys =>
    match pvdDecEq xs ys with
    | isTrue h => isTrue (congrArg PyVal.dict h)
    | isFalse h => isFalse (fun hh => h (PyVal.dict.inj hh))

/-- Decidable equality on lists of `PyVal`. -/
def pvlDecEq : (a b : List PyVal) → Decidable (a = b)
  | [], [] => isTrue rfl
  | [], _ :: _ => isFalse (fun hh => List.noConfusion hh)
  | _ :: _, [] => isFalse (fun hh => List.noConfusion hh)
  | x :: xs, y :: ys =>
    match pvDecEq x y, pvlDecEq xs ys with
    | isTrue h1, isTrue h2 => isTrue (by rw [h1, h2])
    | isFalse h1, _ => isFalse (fun hh => h1 (List.cons.inj hh).1)
    | _, isFalse h2 => isFalse (fun hh => h2 (List.cons.inj hh).2)

/-- Decidable equality on dict entry lists. -/
def pvdDecEq : (a b : List (PyVal × PyVal)) → Decidable (a = b)
  | [], [] => isTrue rfl
  | [], _ :: _ => isFalse (fun hh => List.noConfusion hh)
  | _ :: _, [] => isFalse (fun hh => List.noConfusion hh)
  | (k1, v1) :: xs, (k2, v2) :: ys =>
    match pvDecEq k1 k2, pvDecEq v1 v2, pvdDecEq xs ys with
    | isTrue h1, isTrue h2, isTrue h3 => isTrue (by rw [h1, h2, h3])
    | isFalse h1, _, _ =>
      isFalse (fun hh => h1 (congrArg Prod.fst (List.cons.inj hh).1))
    | _, isFalse h2, _ =>
      isFalse (fun hh => h2 (congrArg Prod.snd (List.cons.inj hh).1))
    | _, _, isFalse h3 => isFalse (fun hh => h3 (List.cons.inj hh).2)

end

instance : DecidableEq PyVal := pvDecEq

namespace EMPA

/-- Python truthiness of a value. -/
def pyTruthy : PyVal → Bool
  | .str s => decide (s ≠ "")
  | .num n => decide (n ≠ .fin 0)
  | .pynone => false
  | .list xs => decide (xs ≠ [])
  | .dict xs => decide (xs ≠ [])

/-- `isinstance(v, dict)`. -/
def pyIsDict : PyVal → Bool
  | .dict _ => true
  | _ => false

/-- `isinstance(v, list)`. -/
def pyIsList : PyVal → Bool
  | .list _ => true
  | _ => false

/-- Dict lookup `d[k]` / `d.get(k)` on ordered-association-list entries. -/
def dGet? (d : List (PyVal × PyVal)) (k : PyVal) : Option PyVal :=
  (d.find? (fun kv => decide (kv.1 = k))).map (fun kv => kv.2)

/-- Dict assignment `d[k] = v`: update in place when the key exists
(keeping its position), append otherwise — CPython dict semantics
(keys are unique, so replacing the first occurrence is replacement). -/
def pdSet : List (PyVal × PyVal) → PyVal → PyVal → List (PyVal × PyVal)
  | [], k, v => [(k, v)]
  | kv :: tl, k, v => if kv.1 = k then (k, v) :: tl else kv :: pdSet tl k v

/-- `d.setdefault(k, v)`: insert only when absent. -/
def pdSetdefault : List (PyVal × PyVal) → PyVal → PyVal → List (PyVal × PyVal)
  | [], k, v => [(k, v)]
  | kv :: tl, k, v => if kv.1 = k then kv :: tl else kv :: pdSetdefault tl k v

/-- `d.update(new)`: fold the new entries in with dict-assignment
semantics. -/
def pdUpdate (d new : List (PyVal × PyVal)) : List (PyVal × PyVal) :=
  new.foldl (fun acc kv => pdSet acc kv.1 kv.2) d

/-- Same ordered-update semantics for a string-valued section map. -/
def alSet : List (String × String) → String → String → List (String × String)
  | [], k, v => [(k, v)]
  | kv :: tl, k, v => if kv.1 = k then (k, v) :: tl else kv :: alSet tl k v

/-!
## KV_RE and the Section Segmenter

`KV_RE = re.compile(r'^\s*([^:]+?)\s*:\s*(.*)$')` matches a line exactly
when it contains a colon preceded by at least one character (the colon
matched is the first one; group 1 must be non-empty, so a line starting
with `:` fails).  Since the code always applies `.strip()` to both
groups, the extracted key/value are the whitespace-trimmed text before
and after the first colon.
-/

/-- The match of `KV_RE` against a line, with both groups stripped as the
code does: `some (key, val)` when the line has a colon at index ≥ 1. -/
def kvMatch (s : String) : Option (String × String) :=
  match s.toList with
  | [] => Option.none
  | c :: rest =>
    if c = ':' then Option.none
    else
      match splitFirstL ':' (c :: rest) with
      | some (l, r) => some (String.mk (pstripL l), String.mk (pstripL r))
      | Option.none => Option.none

/-- `is_kv_line`: whether `KV_RE` matches. -/
def is_kv_line (s : String) : Bool := (kvMatch s).isSome

/-- `is_top_level_kv_line`: non-empty, `KV_RE` matches, and the first
character is neither a space nor a tab. -/
def is_top_level_kv_line (s : String) : Bool :=
  match s.toList with
  | [] => false
  | c :: _ => (kvMatch s).isSome && !(c = ' ' || c = '\t')

/-- The inner collection loop of `split_section_lines`: gather lines into
the current block until the next top-level key:value line or a line
starting with `DataSet/Point`; returns the block lines and the rest. -/
def collectBlock : List String → (List String × List String)
  | [] => ([], [])
  | ln :: rest =>
    if is_top_level_kv_line ln || strStarts ln "DataSet/Point" then ([], ln :: rest)
    else
      let p := collectBlock rest
      (ln :: p.1, p.2)

/-- `'\n'.join(block)`. -/
def joinNL : List String → String
  | [] => ""
  | [x] => x
  | x :: y :: rest => x ++ "\n" ++ joinNL (y :: rest)

/-- The scan of `split_section_lines`, emitting `(key, value)` events in
document order (scalar entries, or blocks joined with newline and
stripped).  Lines that do not match `KV_RE` are skipped.  Structural
recursion on a fuel argument so the definition evaluates by kernel
reduction; every step consumes at least one line, so fuel
`lines.length + 1` (as supplied by `sectionEvents`) never runs out. -/
def sectionEventsF : Nat → List String → List (String × String)
  | 0, _ => []
  | _ + 1, [] => []
  | fuel + 1, ln :: rest =>
    match kvMatch ln with
    | Option.none => sectionEventsF fuel rest
    | some (key, val) =>
      if val ≠ "" then (key, val) :: sectionEventsF fuel rest
      else
        let p := collectBlock rest
        (key, pstrip (joinNL p.1)) :: sectionEventsF fuel p.2

/-- The event scan with sufficient fuel. -/
def sectionEvents (lines : List String) : List (String × String) :=
  sectionEventsF (lines.length + 1) lines

/-- `split_section_lines`: the ordered section map (an `OrderedDict`
built with last-write-wins assignment). -/
def split_section_lines (lines : List String) : List (String × String) :=
  (sectionEvents lines).foldl (fun d kv => alSet d kv.1 kv.2) []

/-!
## Python `float(...)`

Models CPython's `float` applied to a string: optional surrounding
whitespace, an optional sign, then either a decimal literal (integer
part, optional fraction, optional exponent, with single underscores
allowed between digits) or `inf`/`infinity`/`nan` (case-insensitive).
Finite results are exact rationals.
-/

/-- Continuation of `digitPart`: further digits, with a single `_`
allowed only when immediately followed by a digit. -/
def digitRun : List Char → (List Char × List Char)
  | c :: rest =>
    if c.isDigit then
      let p := digitRun rest
      (c :: p.1, p.2)
    else if c = '_' then
      match rest with
      | d :: rest2 =>
        if d.isDigit then
          let p := digitRun rest2
          (d :: p.1, p.2)
        else ([], c :: rest)
      | [] => ([], [c])
    else ([], c :: rest)
  | [] => ([], [])

/-- Consume a Python digit-part `digit (["_"] digit)*`; returns the
digits (underscores removed) and the rest, or `none` if the input does
not start with a digit. -/
def digitPart : List Char → Option (List Char × List Char)
  | c :: rest =>
    if c.isDigit then
      let p := digitRun rest
      some (c :: p.1, p.2)
    else Option.none
  | [] => Option.none

/-- Numeric value of a list of decimal digits. -/
def digitsToNat : List Char → Nat :=
  fun l => l.foldl (fun acc c => acc * 10 + (c.toNat - 48)) 0

/-- Rational value `ip.fp × 10^ex` with sign, built with `mkRat` and
integer arithmetic only (those evaluate by kernel reduction). -/
def ratOfParts (neg : Bool) (ip fp : List Char) (ex : Int) : ℚ :=
  let n : Int := Int.ofNat (digitsToNat (ip ++ fp))
  let sn : Int := if neg then -n else n
  let e : Int := ex - Int.ofNat fp.length
  if 0 ≤ e then mkRat (sn * Int.ofNat (10 ^ e.toNat)) 1
  else mkRat sn (10 ^ (-e).toNat)

/-- Parse the optional exponent `([eE] [+-]? digitpart)`; input must be
fully consumed. -/
def parseExp : List Char → Option Int
  | [] => some 0
  | c :: rest =>
    if c = 'e' ∨ c = 'E' then
      match rest with
      | '+' :: r2 =>
        match digitPart r2 with
        | some (ds, []) => some (Int.ofNat (digitsToNat ds))
        | _ => Option.none
      | '-' :: r2 =>
        match digitPart r2 with
        | some (ds, []) => some (-(Int.ofNat (digitsToNat ds)))
        | _ => Option.none
      | r2 =>
        match digitPart r2 with
        | some (ds, []) => some (Int.ofNat (digitsToNat ds))
        | _ => Option.none
    else Option.none

/-- Parse the unsigned numeric body (after sign), returning the value or
`none`; input must be fully consumed. -/
def parseBody (neg : Bool) (l : List Char) : Option PyNum :=
  match digitPart l with
  | some (ip, rest) =>
    match rest with
    | '.' :: r2 =>
      match digitPart r2 with
      | some (fp, r3) => (parseExp r3).map (fun ex => PyNum.fin (ratOfParts neg ip fp ex))
      | Option.none => (parseExp r2).map (fun ex => PyNum.fin (ratOfParts neg ip [] ex))
    | _ => (parseExp rest).map (fun ex => PyNum.fin (ratOfParts neg ip [] ex))
  | Option.none =>
    match l with
    | '.' :: r2 =>
      match digitPart r2 with
      | some (fp, r3) => (parseExp r3).map (fun ex => PyNum.fin (ratOfParts neg [] fp ex))
      | Option.none => Option.none
    | _ =>
      if (l.map charLower) = "inf".toList ∨ (l.map charLower) = "infinity".toList then
        some (if neg then PyNum.ninf else PyNum.inf)
      else if (l.map charLower) = "nan".toList then some PyNum.nan
      else Option.none

/-- CPython `float(s)` on a string: `some` value or `none` when a
`ValueError` would be raised. -/
def pyFloat? (s : String) : Option PyNum :=
  match pstripL s.toList with
  | '+' :: rest => parseBody false rest
  | '-' :: rest => parseBody true rest
  | rest => parseBody false rest

/-!
## Further string utilities used by the block grammars
-/

/-- `str.splitlines()` worker: split on `\n`, `\r\n` or `\r`, without a
trailing empty line for a trailing terminator. -/
def slGo (acc : List Char) : List Char → List (List Char)
  | [] => [acc.reverse]
  | '\r' :: '\n' :: [] => [acc.reverse]
  | '\r' :: '\n' :: r => acc.reverse :: slGo [] r
  | '\r' :: [] => [acc.reverse]
  | '\r' :: r => acc.reverse :: slGo [] r
  | '\n' :: [] => [acc.reverse]
  | '\n' :: r => acc.reverse :: slGo [] r
  | c :: r => slGo (c :: acc) r

/-- Python `s.splitlines()` (for the `\n`/`\r\n`/`\r` terminators; blocks
in this program are joined with `\n` only). -/
def pySplitlines (s : String) : List String :=
  if s = "" then [] else (slGo [] s.toList).map String.mk

/-- Is `c` an ASCII letter (`[A-Za-z]`)? -/
def isAsciiAlpha (c : Char) : Bool :=
  (65 ≤ c.toNat && c.toNat ≤ 90) || (97 ≤ c.toNat && c.toNat ≤ 122)

/-- Worker for `re.split(r',\s*(?=[A-Za-z])', s)`: split on a comma
followed by optional whitespace and a lookahead ASCII letter; the
separator consumes the comma and the whitespace run.  Fuel-structural;
each step consumes at least one character, so fuel `length + 1` never
runs out. -/
def sclGoF : Nat → List Char → List Char → List (List Char)
  | 0, acc, _ => [acc.reverse]
  | _ + 1, acc, [] => [acc.reverse]
  | fuel + 1, acc, c :: rest =>
    if c = ',' then
      let r := rest.dropWhile pySpace
      match r with
      | d :: _ =>
        if isAsciiAlpha d then acc.reverse :: sclGoF fuel [] r
        else sclGoF fuel (c :: acc) rest
      | [] => sclGoF fuel (c :: acc) rest
    else sclGoF fuel (c :: acc) rest

/-- `re.split(r',\s*(?=[A-Za-z])', s)`. -/
def splitCommaLetter (s : String) : List String :=
  (sclGoF (s.toList.length + 1) [] s.toList).map String.mk

/-- Worker for `re.split(r',\s*', s)`: split on a comma plus the
following whitespace run.  Fuel-structural as above. -/
def scwGoF : Nat → List Char → List Char → List (List Char)
  | 0, acc, _ => [acc.reverse]
  | _ + 1, acc, [] => [acc.reverse]
  | fuel + 1, acc, c :: rest =>
    if c = ',' then acc.reverse :: scwGoF fuel [] (rest.dropWhile pySpace)
    else scwGoF fuel (c :: acc) rest

/-- `re.split(r',\s*', s)`. -/
def splitCommaWs (s : String) : List String :=
  (scwGoF (s.toList.length + 1) [] s.toList).map String.mk

/-- Worker for `re.split(r'\s{2,}|\t', s)`: separators are maximal
whitespace runs of length at least two, or a single tab. -/
def sColsGoF : Nat → List Char → List Char → List (List Char)
  | 0, acc, _ => [acc.reverse]
  | _ + 1, acc, [] => [acc.reverse]
  | fuel + 1, acc, c :: rest =>
    if pySpace c && (match rest with | d :: _ => pySpace d | [] => false) then
      acc.reverse :: sColsGoF fuel [] (rest.dropWhile pySpace)
    else if c = '\t' then acc.reverse :: sColsGoF fuel [] rest
    else sColsGoF fuel (c :: acc) rest

/-- `re.split(r'\s{2,}|\t', s)`. -/
def splitCols (s : String) : List String :=
  (sColsGoF (s.toList.length + 1) [] s.toList).map String.mk

/-- `re.search(r'\((.*)\)', right)`: the leftmost `(` that has some `)`
after it, the greedy group running to the last `)`.  Returns the text
before the parenthesis and the group content. -/
def insideUpToLastParen (rest : List Char) : List Char :=
  ((rest.reverse.dropWhile (fun c => decide (c ≠ ')'))).drop 1).reverse

/-- Worker for `parenSearch`. -/
def parenSearchGo (pre : List Char) : List Char → Option (List Char × List Char)
  | [] => Option.none
  | c :: rest =>
    if c = '(' then
      if rest.contains ')' then some (pre.reverse, insideUpToLastParen rest)
      else parenSearchGo (c :: pre) rest
    else parenSearchGo (c :: pre) rest

/-- `re.search(r'\((.*)\)', s)` as `(prefix-before-match, group 1)`. -/
def parenSearch (l : List Char) : Option (List Char × List Char) :=
  parenSearchGo [] l

/-- The match `re.match(r'^(.*?)\s+On\s+(.*)$', ln, re.IGNORECASE)`:
scan for the first position where a whitespace run is followed by
case-insensitive `on` and then at least one whitespace character; returns
(group 1, group 2). -/
def onSplitGo (pre : List Char) : List Char → Option (List Char × List Char)
  | [] => Option.none
  | c :: rest =>
    if pySpace c then
      match (c :: rest).dropWhile pySpace with
      | o :: n :: v =>
        if charLower o = 'o' && charLower n = 'n' &&
            (match v with | d :: _ => pySpace d | [] => false) then
          some (pre.reverse, v.dropWhile pySpace)
        else onSplitGo (c :: pre) rest
      | _ => onSplitGo (c :: pre) rest
    else onSplitGo (c :: pre) rest

/-- The `(.*?)\s+On\s+(.*)` split of a line. -/
def onSplit (l : List Char) : Option (List Char × List Char) :=
  onSplitGo [] l

/-!
## Composition Grammar (`parse_standard_composition`)
-/

/-- The split of one composition component on its first colon, both
sides stripped (`part.split(':', 1)`); `none` when `':' not in part`. -/
def compPartSplit (part : String) : Option (String × String) :=
  (splitFirstL ':' part.toList).map
    (fun p => (String.mk (pstripL p.1), String.mk (pstripL p.2)))

/-- The numeric text of a component: value with trailing `%` stripped
and re-stripped (`val.rstrip('%').strip()`). -/
def compValText (val0 : String) : String := pstrip (prstrip ['%'] val0)

/-- Process one component `El : value%` of a composition line: update
`(comps, element_to_standard)`; skip the component when it has no colon;
fall back to the raw (percent-stripped) string when `float` fails. -/
def compPart (name : String) (st : List (PyVal × PyVal) × List (PyVal × PyVal))
    (part : String) : List (PyVal × PyVal) × List (PyVal × PyVal) :=
  match compPartSplit part with
  | Option.none => st
  | some (el, val0) =>
    let val := compValText val0
    let cv : PyVal :=
      match pyFloat? val with
      | some n => PyVal.num n
      | Option.none => PyVal.str val
    (pdSet st.1 (PyVal.str el) cv, pdSet st.2 (PyVal.str el) (PyVal.str name))

/-- Process one composition line, updating
`(standard_to_composition, element_to_standard)`. -/
def compLine (st : List (PyVal × PyVal) × List (PyVal × PyVal)) (ln0 : String) :
    List (PyVal × PyVal) × List (PyVal × PyVal) :=
  let ln := pstrip ln0
  if ln = "" then st
  else
    match splitFirstL '=' ln.toList with
    | Option.none => st
    | some (l, r) =>
      let name := String.mk (pstripL l)
      let rest := String.mk (pstripL r)
      let parts := ((splitCommaLetter rest).map pstrip).filter (fun p => p ≠ "")
      let inner := parts.foldl (compPart name) ([], st.2)
      (pdSet st.1 (PyVal.str name) (PyVal.dict inner.1), inner.2)

/-- `parse_standard_composition(block)`. -/
def parse_standard_composition (block : String) : PyVal :=
  let st :=
    if block = "" then ([], [])
    else (pySplitlines block).foldl compLine ([], [])
  PyVal.dict [(PyVal.str "standard_to_composition", PyVal.dict st.1),
    (PyVal.str "element_to_standard", PyVal.dict st.2)]

/-!
## Calibration Grammar (`parse_calibration_block`, defined twice in the
source; the two occurrences are byte-identical, verified by diffing
lines 93–122 against lines 142–171)
-/

/-- `re.sub(r'[^\d\.\-eE]', '', val)`. -/
def keepNumChars (s : String) : String :=
  String.mk (s.toList.filter
    (fun c => c.isDigit || c = '.' || c = '-' || c = 'e' || c = 'E'))

/-- Process one `el : value` pair inside the parenthetical cps group:
store the parsed number, or the raw (stripped) value when `float` on the
unit-stripped text fails; pairs without a colon are skipped. -/
def calInsidePart (cps : List (PyVal × PyVal)) (part : String) : List (PyVal × PyVal) :=
  match splitFirstL ':' part.toList with
  | Option.none => cps
  | some (l, r) =>
    let el := String.mk (pstripL l)
    let val := String.mk (pstripL r)
    match pyFloat? (keepNumChars val) with
    | some n => pdSet cps (PyVal.str el) (PyVal.num n)
    | Option.none => pdSet cps (PyVal.str el) (PyVal.str val)

/-- Process one calibration line. -/
def calLine (out : List (PyVal × PyVal)) (ln0 : String) : List (PyVal × PyVal) :=
  let ln := pstrip ln0
  if ln = "" then out
  else
    match splitFirstL ':' ln.toList with
    | Option.none => out
    | some (l, r) =>
      let left := String.mk (pstripL l)
      let right := String.mk (pstripL r)
      let elements := ((splitCommaStr left).map pstrip).filter (fun e => e ≠ "")
      let pc := parenSearch right.toList
      let path :=
        match pc with
        | some (pre, _) => String.mk (pstripL pre)
        | Option.none => right
      let cps :=
        match pc with
        | some (_, inside) => (splitCommaWs (String.mk inside)).foldl calInsidePart []
        | Option.none => []
      elements.foldl (fun o el =>
        pdSet o (PyVal.str el) (PyVal.dict [(PyVal.str "cal_file", PyVal.str path),
          (PyVal.str "cps_info",
            if cps.isEmpty then PyVal.pynone else (dGet? cps (PyVal.str el)).getD PyVal.pynone)])) out

/-- The first `parse_calibration_block` (source lines 93–122). -/
def parse_calibration_block_v1 (block : String) : PyVal :=
  PyVal.dict (if block = "" then [] else (pySplitlines block).foldl calLine [])

/-- The second `parse_calibration_block` (source lines 142–171), the
binding used by `parse_file`; its source text is byte-identical to the
first occurrence. -/
def parse_calibration_block (block : String) : PyVal :=
  PyVal.dict (if block = "" then [] else (pySplitlines block).foldl calLine [])

/-!
## Tabular-Parameters Grammar (`parse_analysis_parameters`)
-/

/-- `parse_analysis_parameters(block)`: a list of row dicts keyed by the
header of the first non-blank line. -/
def parse_analysis_parameters (block : String) : PyVal :=
  if block = "" then PyVal.list []
  else
    let lines := (pySplitlines block).filter (fun ln => pstrip ln ≠ "")
    match lines with
    | [] => PyVal.list []
    | first :: rest =>
      let header := splitCols (pstrip first)
      PyVal.list (rest.map (fun ln =>
        let cols0 := splitCols (pstrip ln)
        let cols :=
          if cols0.length < header.length then
            cols0 ++ List.replicate (header.length - cols0.length) ""
          else cols0
        let n := min header.length cols.length
        PyVal.dict (((List.range n).map (fun i =>
            (PyVal.str (pstrip (header.getD i "")), PyVal.str (pstrip (cols.getD i ""))))).foldl
          (fun d kv => pdSet d kv.1 kv.2) [])))

/-!
## Standard-Name Grammar (`parse_standard_name_block`)
-/

/-- `d.setdefault(k, []).extend(new)` for list-valued entries.  (A
non-list existing value would raise in Python; every entry stored here
is a list, so that branch is unreachable and modelled as a no-op.) -/
def listExtend (d : List (PyVal × PyVal)) (k : PyVal) (new : List PyVal) :
    List (PyVal × PyVal) :=
  match dGet? d k with
  | some (PyVal.list cur) => pdSet d k (PyVal.list (cur ++ new))
  | some _ => d
  | Option.none => d ++ [(k, PyVal.list new)]

/-- Process one standard-name line, updating
`(standard_to_elements, element_to_standard)`. -/
def snLine (st : List (PyVal × PyVal) × List (PyVal × PyVal)) (ln0 : String) :
    List (PyVal × PyVal) × List (PyVal × PyVal) :=
  let ln := pstrip ln0
  if ln = "" then st
  else
    match onSplit ln.toList with
    | some (g1, g2) =>
      let left := String.mk (pstripL g1)
      let right := String.mk (pstripL g2)
      let elems := ((splitCommaWs left).map pstrip).filter (fun e => e ≠ "")
      (listExtend st.1 (PyVal.str right) (elems.map PyVal.str),
        elems.foldl (fun m e => pdSet m (PyVal.str e) (PyVal.str right)) st.2)
    | Option.none => (pdSetdefault st.1 (PyVal.str ln) (PyVal.list []), st.2)

/-- `parse_standard_name_block(block)`. -/
def parse_standard_name_block (block : String) : PyVal :=
  let st :=
    if block = "" then ([], [])
    else (pySplitlines block).foldl snLine ([], [])
  PyVal.dict [(PyVal.str "standard_to_elements", PyVal.dict st.1),
    (PyVal.str "element_to_standard", PyVal.dict st.2)]

/-!
## Column-Condition Grammar (`parse_column_conditions`)

Two regexes are modelled: the anchored
`re.match(r'Cond\s*(\d+)\s*:\s*(.*)$', ln, re.IGNORECASE)` and
`re.findall(r'Cond\s*(\d+)\s*:\s*([^,]+(?:,\s*[^,]+)*)', ln, re.IGNORECASE)`.
For the findall pattern, after the colon the regex takes the whitespace
run greedily when a non-comma character follows it; when the run is
followed by a comma or the end, one whitespace character is given back to
start the `[^,]+` group (whitespace is not a comma); with no whitespace
available the group fails.
-/

/-- `re.match(r'Cond\s*(\d+)\s*:\s*(.*)$', ln, re.IGNORECASE)`:
`some (digits, group 2)` on success. -/
def condMatch (s : String) : Option (String × String) :=
  match s.toList with
  | c1 :: c2 :: c3 :: c4 :: rest =>
    if charLower c1 = 'c' && charLower c2 = 'o' && charLower c3 = 'n' && charLower c4 = 'd' then
      let r1 := rest.dropWhile pySpace
      let ds := r1.takeWhile Char.isDigit
      if ds.isEmpty then Option.none
      else
        match (r1.dropWhile Char.isDigit).dropWhile pySpace with
        | ':' :: r3 => some (String.mk ds, String.mk (r3.dropWhile pySpace))
        | _ => Option.none
    else Option.none
  | _ => Option.none

/-- Start of the `\s*[^,]+` group after a colon or comma: consume the
whitespace run when a non-comma character follows; otherwise give back
one whitespace character; fail when neither is possible. -/
def g2Start (r3 : List Char) : Option (List Char) :=
  let k := (r3.takeWhile pySpace).length
  match r3.drop k with
  | c :: _ =>
    if c = ',' then (if 1 ≤ k then some (r3.drop (k - 1)) else Option.none)
    else some (r3.drop k)
  | [] => if 1 ≤ k then some (r3.drop (k - 1)) else Option.none

/-- The greedy `(?:,\s*[^,]+)*` continuation: from a position that may
hold a comma, return the further captured characters and the remainder.
Each iteration consumes at least two characters, so fuel `length + 1`
never runs out. -/
def g2LoopF : Nat → List Char → (List Char × List Char)
  | 0, l => ([], l)
  | _ + 1, [] => ([], [])
  | fuel + 1, c :: u =>
    if c = ',' then
      match g2Start u with
      | some g =>
        let run := g.takeWhile (fun x => decide (x ≠ ','))
        let afterRun := g.dropWhile (fun x => decide (x ≠ ','))
        let wsConsumed := u.take (u.length - g.length)
        let p := g2LoopF fuel afterRun
        (c :: (wsConsumed ++ run) ++ p.1, p.2)
      | Option.none => ([], c :: u)
    else ([], c :: u)

/-- Try the findall pattern at the head of `l`; on success return
(digits, group 2, rest after the match). -/
def cfMatchAt (l : List Char) : Option (String × String × List Char) :=
  match l with
  | c1 :: c2 :: c3 :: c4 :: rest =>
    if charLower c1 = 'c' && charLower c2 = 'o' && charLower c3 = 'n' && charLower c4 = 'd' then
      let r1 := rest.dropWhile pySpace
      let ds := r1.takeWhile Char.isDigit
      if ds.isEmpty then Option.none
      else
        match (r1.dropWhile Char.isDigit).dropWhile pySpace with
        | ':' :: r3 =>
          match g2Start r3 with
          | some g =>
            let run := g.takeWhile (fun x => decide (x ≠ ','))
            let afterRun := g.dropWhile (fun x => decide (x ≠ ','))
            let p := g2LoopF (afterRun.length + 1) afterRun
            some (String.mk ds, String.mk (run ++ p.1), p.2)
          | Option.none => Option.none
        | _ => Option.none
    else Option.none
  | _ => Option.none

/-- Scan for non-overlapping findall matches left to right; a successful
match resumes after its end, a failure advances one character.  Every
step consumes at least one character, so fuel `length + 1` suffices. -/
def cfScanF : Nat → List Char → List (String × String)
  | 0, _ => []
  | _ + 1, [] => []
  | fuel + 1, c :: rest =>
    match cfMatchAt (c :: rest) with
    | some (num, g2, after) => (num, g2) :: cfScanF fuel after
    | Option.none => cfScanF fuel rest

/-- `re.findall(r'Cond\s*(\d+)\s*:\s*([^,]+(?:,\s*[^,]+)*)', s, re.IGNORECASE)`. -/
def condFindall (s : String) : List (String × String) :=
  cfScanF (s.toList.length + 1) s.toList

/-- The running state of `parse_column_conditions`: the `conds` dict,
the `element_to_condition` dict, and `last_cond` (`None` initially). -/
structure CondSt where
  conds : List (PyVal × PyVal)
  e2c : List (PyVal × PyVal)
  last : PyVal

/-- `out['conds'].setdefault(key, {'desc': d, 'elements': []})['elements'].extend(elems)`.
(A non-dict or non-list shape would raise in Python; every entry stored
here has the canonical shape, so those branches are unreachable
no-ops.) -/
def condExtend (conds : List (PyVal × PyVal)) (key : PyVal) (elems : List String) :
    List (PyVal × PyVal) :=
  match dGet? conds key with
  | some (PyVal.dict info) =>
    let cur :=
      match dGet? info (PyVal.str "elements") with
      | some (PyVal.list l) => l
      | _ => []
    pdSet conds key
      (PyVal.dict (pdSet info (PyVal.str "elements")
        (PyVal.list (cur ++ elems.map PyVal.str))))
  | some _ => conds
  | Option.none =>
    conds ++ [(key, PyVal.dict [(PyVal.str "desc", PyVal.str ""),
      (PyVal.str "elements", PyVal.list (elems.map PyVal.str))])]

/-- The continuation-line token list:
`[e.strip() for e in re.split(r',\s*', ln.lstrip(', ')) if e.strip()]`. -/
def contElems (ln : String) : List String :=
  ((splitCommaWs (plstrip [',', ' '] ln)).map pstrip).filter (fun e => e ≠ "")

/-- One findall-match step of the column-conditions loop. -/
def condFoundStep (st2 : CondSt) (p : String × String) : CondSt :=
  let key := PyVal.str ("Cond " ++ p.1)
  let elems := ((splitCommaStr p.2).map pstrip).filter (fun e => e ≠ "")
  { conds := condExtend st2.conds key elems,
    e2c := elems.foldl (fun m e => pdSet m (PyVal.str e) key) st2.e2c,
    last := key }

/-- The findall/continuation part of processing one column-conditions
line, applied to the state left by the description match. -/
def condLineRest (st1 : CondSt) (ln : String) : CondSt :=
  match condFindall ln with
  | [] =>
    if strStarts ln "," || (!(strStarts (strLower ln) "cond") && pyTruthy st1.last) then
      let elems := contElems ln
      { conds := condExtend st1.conds st1.last elems,
        e2c := elems.foldl (fun m e => pdSet m (PyVal.str e) st1.last) st1.e2c,
        last := st1.last }
    else st1
  | found => found.foldl condFoundStep st1

/-- The state after the anchored `Cond N : desc` match of one line. -/
def condLineDesc (st : CondSt) (ln : String) : CondSt :=
  match condMatch ln with
  | some (num, g2) =>
    let key := PyVal.str ("Cond " ++ num)
    { conds := pdSetdefault st.conds key
        (PyVal.dict [(PyVal.str "desc", PyVal.str (prstrip [','] (pstrip g2))),
          (PyVal.str "elements", PyVal.list [])]),
      e2c := st.e2c, last := key }
  | Option.none => st

/-- Process one (stripped, non-blank) column-conditions line. -/
def condLine (st : CondSt) (ln : String) : CondSt :=
  condLineRest (condLineDesc st ln) ln

/-- The stripped non-blank lines a column-conditions block is processed
as. -/
def condBlockLines (block : String) : List String :=
  ((pySplitlines block).map pstrip).filter (fun ln => ln ≠ "")

/-- `parse_column_conditions(block)`. -/
def parse_column_conditions (block : String) : PyVal :=
  let st :=
    if block = "" then CondSt.mk [] [] PyVal.pynone
    else (condBlockLines block).foldl condLine (CondSt.mk [] [] PyVal.pynone)
  PyVal.dict [(PyVal.str "conds", PyVal.dict st.conds),
    (PyVal.str "element_to_condition", PyVal.dict st.e2c)]

/-- The `conds` entries of a column-conditions result. -/
def condsOf (r : PyVal) : List (PyVal × PyVal) :=
  match r with
  | PyVal.dict es =>
    match dGet? es (PyVal.str "conds") with
    | some (PyVal.dict cs) => cs
    | _ => []
  | _ => []

/-- The `element_to_condition` entries of a column-conditions result. -/
def e2cOf (r : PyVal) : List (PyVal × PyVal) :=
  match r with
  | PyVal.dict es =>
    match dGet? es (PyVal.str "element_to_condition") with
    | some (PyVal.dict cs) => cs
    | _ => []
  | _ => []

/-- The key list of a record / dict entry list. -/
def keysP (d : List (PyVal × PyVal)) : List PyVal := d.map Prod.fst

/-- The canonical per-condition value `{'desc': d, 'elements': els}`. -/
def condInfo (d : String) (els : List PyVal) : PyVal :=
  PyVal.dict [(PyVal.str "desc", PyVal.str d), (PyVal.str "elements", PyVal.list els)]

/-!
## File Parser (`parse_file`)

A `FileRecord` is the ordered dict produced by `parse_file`: the raw
section entries (string keys and string values) plus at most one
synthetic entry per grammar.
-/

/-- One grammar registration: the recognized key prefix (compared
against the lower-cased section key), the fixed synthetic key, and the
parser. -/
structure Grammar where
  keyStart : String
  synthKey : String
  run : String → PyVal

/-- The five grammar passes of `parse_file`, in source order. -/
def grammars : List Grammar :=
  [⟨"standard composition", "Standard composition parsed", parse_standard_composition⟩,
    ⟨"calibration file", "Calibration parsed", parse_calibration_block⟩,
    ⟨"analysis param", "Analysis Parameters parsed", parse_analysis_parameters⟩,
    ⟨"standard name", "Standard Name parsed", parse_standard_name_block⟩,
    ⟨"column conditions", "Column Conditions parsed", parse_column_conditions⟩]

/-- The header portion of a file: lines strictly before the first line
starting with `DataSet/Point`. -/
def headerOf (lines : List String) : List String :=
  lines.takeWhile (fun ln => !(strStarts ln "DataSet/Point"))

/-- Apply each grammar to the block value of the first section key whose
lower-cased form starts with its recognized prefix (the `break` in each
source loop), storing the result under the synthetic key. -/
def applyGrammars (gs : List Grammar) (sections : List (String × String))
    (parsed : List (PyVal × PyVal)) : List (PyVal × PyVal) :=
  gs.foldl (fun p g =>
    match sections.find? (fun kv => strStarts (strLower kv.1) g.keyStart) with
    | some kv => pdSet p (PyVal.str g.synthKey) (g.run kv.2)
    | Option.none => p) parsed

/-- `parse_file`, as a function of the file's lines (the line reader is
an I/O collaborator). -/
def parse_file (lines : List String) : List (PyVal × PyVal) :=
  let sections := split_section_lines (headerOf lines)
  applyGrammars grammars sections
    (sections.map (fun kv => (PyVal.str kv.1, PyVal.str kv.2)))

/-!
## Cross-File Aggregator (`walk_parse_and_export`)

Modelled over an input list of `(path, contents?)` pairs standing for
the files found by the directory walk; `none` contents stands for a file
whose `parse_file` call raises (I/O failure), which the loop reports and
skips.  The emitted CSVs are modelled as `Table` values (field names
plus rows of cells in field order, exactly what `csv.DictWriter`
writes).
-/

/-- `PurePath.suffix` of a path: the extension (with dot) of the final
component, empty when the last dot is leading or trailing. -/
def pathSuffix (p : String) : String :=
  let name := ((splitAllL '/' p.toList).getLast?).getD []
  if name.contains '.' then
    let tl := name.reverse.takeWhile (fun c => decide (c ≠ '.'))
    let i := name.length - 1 - tl.length
    if 1 ≤ i ∧ tl ≠ [] then String.mk ('.' :: tl.reverse) else ""
  else ""

/-- `p.suffix.lower() in exts` for `exts = ('.txt', '.qtidat', '.qtidat')`
(the source lists `.qtidat` twice). -/
def recognizedExt (p : String) : Bool :=
  let s := strLower (pathSuffix p)
  s = ".txt" || s = ".qtidat" || s = ".qtidat"

/-- Ordered-dict update for the `parsed_by_file` map. -/
def recSet : List (String × List (PyVal × PyVal)) → String → List (PyVal × PyVal) →
    List (String × List (PyVal × PyVal))
  | [], k, v => [(k, v)]
  | kv :: tl, k, v => if kv.1 = k then (k, v) :: tl else kv :: recSet tl k v

/-- One step of the walk loop: parse a recognized file into the
accumulator; skip unrecognized files and files whose parse raises. -/
def walkStep (acc : List (String × List (PyVal × PyVal)))
    (f : String × Option (List String)) : List (String × List (PyVal × PyVal)) :=
  if recognizedExt f.1 then
    match f.2 with
    | some ls => recSet acc f.1 (parse_file ls)
    | Option.none => acc
  else acc

/-- The `parsed_by_file` dict built by the walk loop. -/
def walkParsedByFile (files : List (String × Option (List String))) :
    List (String × List (PyVal × PyVal)) :=
  files.foldl walkStep []

/-- The files whose parse failure the walk loop reports by name
(`print(f"Failed to parse ...")`). -/
def walkFailures (files : List (String × Option (List String))) : List String :=
  files.filterMap (fun f =>
    if recognizedExt f.1 && f.2.isNone then some f.1 else Option.none)

/-- The value of the first record key whose lower-cased form starts with
`pre`, or `None` (the loop-with-`break` pattern of the aggregator). -/
def firstKeyMatch (parsed : List (PyVal × PyVal)) (pre : String) : PyVal :=
  match parsed.find? (fun kv =>
      match kv.1 with
      | PyVal.str s => strStarts (strLower s) pre
      | _ => false) with
  | some kv => kv.2
  | Option.none => PyVal.pynone

/-- Record lookup under a string key. -/
def dGetS? (parsed : List (PyVal × PyVal)) (k : String) : Option PyVal :=
  dGet? parsed (PyVal.str k)

/-- The per-file `element → standard` entries the aggregator extracts:
the first key matching `standard name` (or, when that value is falsy, a
wrapper around a top-level dict-valued `element_to_standard` entry),
kept only when the chosen block is a truthy dict, reading its
`element_to_standard` item (`or {}`).  (A truthy non-dict `etos` would
raise on `.items()` in Python; records produced by `parse_file` never
reach that branch, modelled as the empty result.) -/
def fileElementToStandard (parsed : List (PyVal × PyVal)) : List (PyVal × PyVal) :=
  let sn0 := firstKeyMatch parsed "standard name"
  let sn1 :=
    if pyTruthy sn0 then sn0
    else
      match dGetS? parsed "element_to_standard" with
      | some v =>
        if pyIsDict v then PyVal.dict [(PyVal.str "element_to_standard", v)] else sn0
      | Option.none => sn0
  if pyTruthy sn1 && pyIsDict sn1 then
    let etos :=
      match sn1 with
      | PyVal.dict es =>
        match dGet? es (PyVal.str "element_to_standard") with
        | some e => if pyTruthy e then e else PyVal.dict []
        | Option.none => PyVal.dict []
      | _ => PyVal.dict []
    match etos with
    | PyVal.dict es => es.foldl (fun acc kv => pdSet acc kv.1 kv.2) []
    | _ => []
  else []

/-- Extract `(element, xtal)` from one Analysis-Parameters row: the last
column whose lower-cased header is `element`/`el`/`analyte`/`name` gives
the element, the last whose header contains `xtal`/`cryst`/`crystal`
gives the crystal; with no truthy element the first truthy cell is used;
rows without an element are skipped (`xtal or ''` as the value). -/
def apRowExtract (acc : List (PyVal × PyVal)) (row : PyVal) : List (PyVal × PyVal) :=
  match row with
  | PyVal.dict items =>
    let p := items.foldl (fun (p : PyVal × PyVal) kv =>
      let kl := match kv.1 with | PyVal.str s => strLower s | _ => ""
      let e := if kl = "element" || kl = "el" || kl = "analyte" || kl = "name" then kv.2 else p.1
      let x :=
        if strHasSub kl "xtal" || strHasSub kl "cryst" || strHasSub kl "crystal" then kv.2
        else p.2
      (e, x)) (PyVal.pynone, PyVal.pynone)
    let el :=
      if pyTruthy p.1 then p.1
      else
        match items.find? (fun kv => pyTruthy kv.2) with
        | some kv => kv.2
        | Option.none => p.1
    if pyTruthy el then pdSet acc el (if pyTruthy p.2 then p.2 else PyVal.str "") else acc
  | _ => acc

/-- The per-file `element → xtal` entries: first key matching
`analysis param`, falling back to the `Analysis Parameters parsed` entry
when falsy, used only when a truthy list. -/
def fileElementToXtal (parsed : List (PyVal × PyVal)) : List (PyVal × PyVal) :=
  let ap0 := firstKeyMatch parsed "analysis param"
  let ap1 :=
    if pyTruthy ap0 then ap0
    else
      match dGetS? parsed "Analysis Parameters parsed" with
      | some v => if pyTruthy v then v else ap0
      | Option.none => ap0
  if pyTruthy ap1 && pyIsList ap1 then
    match ap1 with
    | PyVal.list rows => rows.foldl apRowExtract []
    | _ => []
  else []

/-- The per-file `standard → composition` map the aggregator merges:
first key matching `standard composition`; when that is a truthy dict
with a `standard_to_composition` item use it, a truthy dict without one
is used as-is, anything else contributes nothing. -/
def fileStdMap (parsed : List (PyVal × PyVal)) : List (PyVal × PyVal) :=
  let sc := firstKeyMatch parsed "standard composition"
  if pyTruthy sc then
    match sc with
    | PyVal.dict es =>
      if (dGet? es (PyVal.str "standard_to_composition")).isSome then
        match dGet? es (PyVal.str "standard_to_composition") with
        | some (PyVal.dict m) => m
        | some _ => []
        | Option.none => []
      else es
    | _ => []
  else []

/-- `standard_compositions.setdefault(std, {}).update(comps)` folded
over one file's map (non-dict `comps` are skipped by the
`isinstance` guard). -/
def stdCompMerge (agg : List (PyVal × PyVal)) (m : List (PyVal × PyVal)) :
    List (PyVal × PyVal) :=
  m.foldl (fun a kv =>
    match kv.2 with
    | PyVal.dict comps =>
      let cur :=
        match dGet? a kv.1 with
        | some (PyVal.dict c) => c
        | some _ => []
        | Option.none => []
      pdSet a kv.1 (PyVal.dict (pdUpdate cur comps))
    | _ => a) agg

/-- The long `standard, element, value` rows (`''` for `None` values). -/
def stdCompRows (agg : List (PyVal × PyVal)) : List (List PyVal) :=
  (agg.map (fun kv =>
    match kv.2 with
    | PyVal.dict comps =>
      comps.map (fun ev =>
        [kv.1, ev.1, if ev.2 = PyVal.pynone then PyVal.str "" else ev.2])
    | _ => [])).flatten

/-- The string carried by a string `PyVal` (every aggregated element key
is a string; the default covers no reachable case). -/
def pvStr : PyVal → String
  | PyVal.str s => s
  | _ => ""

/-- Remove duplicates keeping first occurrences (Python set contents,
made canonical by the subsequent sort). -/
def dedupStr (l : List String) : List String :=
  l.foldl (fun acc s => if acc.contains s then acc else acc ++ [s]) []

/-- An emitted CSV: the field names and the rows, each row listing its
cells in field order (what `csv.DictWriter` writes). -/
structure Table where
  fields : List String
  rows : List (List PyVal)
deriving DecidableEq

/-- The wide table for one extraction function: columns `file` plus the
sorted union of elements, rows sorted by file path, empty-string cells
for missing assignments. -/
def wideTable (pbf : List (String × List (PyVal × PyVal)))
    (extract : List (PyVal × PyVal) → List (PyVal × PyVal)) : Table :=
  let els := sortStrings (dedupStr
    ((pbf.map (fun fr => (extract fr.2).map (fun kv => pvStr kv.1))).flatten))
  let sortedPaths := sortStrings (pbf.map (fun fr => fr.1))
  { fields := "file" :: els,
    rows := sortedPaths.map (fun fp =>
      let esm :=
        match pbf.find? (fun fr => decide (fr.1 = fp)) with
        | some fr => extract fr.2
        | Option.none => []
      PyVal.str fp :: els.map (fun el => (dGet? esm (PyVal.str el)).getD (PyVal.str ""))) }

/-- The CSVs written for a given `parsed_by_file` map: the two wide
tables always, the long standard-compositions table only when it has
rows. -/
def outputsOfPbf (pbf : List (String × List (PyVal × PyVal))) : List (String × Table) :=
  let agg := pbf.foldl (fun a fr => stdCompMerge a (fileStdMap fr.2)) []
  let scRows := stdCompRows agg
  [("standard_by_element.csv", wideTable pbf fileElementToStandard),
    ("xtal_by_element.csv", wideTable pbf fileElementToXtal)] ++
    (if scRows.isEmpty then []
      else [("standard_compositions.csv", Table.mk ["standard", "element", "value"] scRows)])

/-- The list of CSVs `walk_parse_and_export` writes, as
`(file name, table)` pairs. -/
def walkOutputs (files : List (String × Option (List String))) : List (String × Table) :=
  outputsOfPbf (walkParsedByFile files)

/-!
# Lemmas about the ordered-dict operations
-/

theorem dGet?_nil (k : PyVal) : dGet? [] k = Option.none := rfl

theorem dGet?_cons (kv : PyVal × PyVal) (tl : List (PyVal × PyVal)) (k : PyVal) :
    dGet? (kv :: tl) k = if kv.1 = k then some kv.2 else dGet? tl k := by
  by_cases h : kv.1 = k <;> simp [dGet?, List.find?, h]

theorem pdSet_get_self (d : List (PyVal × PyVal)) (k v : PyVal) :
    dGet? (pdSet d k v) k = some v := by
  induction d with
  | nil => simp [pdSet, dGet?_cons]
  | cons kv tl ih =>
    by_cases h : kv.1 = k
    · simp [pdSet, h, dGet?_cons]
    · simp [pdSet, h, dGet?_cons, ih]

theorem pdSet_get_ne (d : List (PyVal × PyVal)) (k v k' : PyVal) (h : k' ≠ k) :
    dGet? (pdSet d k v) k' = dGet? d k' := by
  induction d with
  | nil => simp [pdSet, dGet?_cons, dGet?_nil, Ne.symm h]
  | cons kv tl ih =>
    by_cases hh : kv.1 = k
    · simp [pdSet, hh, dGet?_cons, Ne.symm h]
    · simp [pdSet, hh, dGet?_cons, ih]

theorem pdSetdefault_get_ne (d : List (PyVal × PyVal)) (k v k' : PyVal) (h : k' ≠ k) :
    dGet? (pdSetdefault d k v) k' = dGet? d k' := by
  induction d with
  | nil => simp [pdSetdefault, dGet?_cons, dGet?_nil, Ne.symm h]
  | cons kv tl ih =>
    by_cases hh : kv.1 = k
    · simp [pdSetdefault, hh, dGet?_cons]
    · simp [pdSetdefault, hh, dGet?_cons, ih]

theorem dGet?_append_some (d l : List (PyVal × PyVal)) (k v : PyVal)
    (h : dGet? d k = some v) : dGet? (d ++ l) k = some v := by
  induction d with
  | nil => simp [dGet?_nil] at h
  | cons kv tl ih =>
    rw [dGet?_cons] at h
    by_cases hh : kv.1 = k
    · simp [hh, dGet?_cons] at h ⊢
      exact h
    · simp only [hh, if_false] at h
      simpa [dGet?_cons, hh] using ih h

theorem fold_pdSet_const_get (l : List String) (m0 : List (PyVal × PyVal))
    (w : PyVal) (t : String) :
    dGet? (l.foldl (fun m e => pdSet m (PyVal.str e) w) m0) (PyVal.str t) =
      if t ∈ l then some w else dGet? m0 (PyVal.str t) := by
  induction l generalizing m0 with
  | nil => simp
  | cons e tl ih =>
    rw [List.foldl_cons, ih]
    by_cases ht : t ∈ tl
    · simp [ht, List.mem_cons]
    · by_cases hte : t = e
      · simp [ht, hte, List.mem_cons, pdSet_get_self]
      · have : PyVal.str t ≠ PyVal.str e := by
          intro hc
          exact hte (PyVal.str.inj hc)
        simp [ht, hte, List.mem_cons, pdSet_get_ne _ _ _ _ this]

/-!
# Claims
-/

/-- Claim C1 (code bug).  The spec says the aggregator extracts the
element→standard map from the Standard-Name result.  In the code, the
scan `for k in parsed.keys(): if k.lower().startswith('standard name')`
hits the *raw* `Standard Name` section (a string) before the synthetic
`Standard Name parsed` entry, the string fails the `isinstance(..., dict)`
guard, and no assignment is extracted — contradicting the code's own
comment "find the parsed standard-name structure".  At the file
`/d/a.txt` with lines `Standard Name :` and `Fe On RKFAYb7`, the record
holds a Standard-Name result mapping `Fe ↦ RKFAYb7`, yet the extracted
per-file map is empty and `standard_by_element.csv` has no `Fe` column
and an empty row. -/
theorem C1_aggregator_misses_standard_names :
    dGetS? (parse_file ["Standard Name :", "Fe On RKFAYb7"]) "Standard Name parsed" =
      some (PyVal.dict
        [(PyVal.str "standard_to_elements",
          PyVal.dict [(PyVal.str "RKFAYb7", PyVal.list [PyVal.str "Fe"])]),
          (PyVal.str "element_to_standard",
            PyVal.dict [(PyVal.str "Fe", PyVal.str "RKFAYb7")])]) ∧
    fileElementToStandard (parse_file ["Standard Name :", "Fe On RKFAYb7"]) = [] ∧
    walkOutputs [("/d/a.txt", some ["Standard Name :", "Fe On RKFAYb7"])] =
      [("standard_by_element.csv", Table.mk ["file"] [[PyVal.str "/d/a.txt"]]),
        ("xtal_by_element.csv", Table.mk ["file"] [[PyVal.str "/d/a.txt"]])] := by
  decide

/-- Claim C5 (confirmed).  The Composition Grammar on
`"A = Si : 25.94%, O : 44.43%"` yields exactly
`standard_to_composition = {A: {Si: 25.94, O: 44.43}}` and
`element_to_standard = {Si: A, O: A}`. -/
theorem C5_parse_standard_composition :
    parse_standard_composition "A = Si : 25.94%, O : 44.43%" =
      PyVal.dict [(PyVal.str "standard_to_composition", PyVal.dict
          [(PyVal.str "A", PyVal.dict
            [(PyVal.str "Si", PyVal.num (PyNum.fin (2594 / 100))),
              (PyVal.str "O", PyVal.num (PyNum.fin (4443 / 100)))])]),
        (PyVal.str "element_to_standard", PyVal.dict
          [(PyVal.str "Si", PyVal.str "A"), (PyVal.str "O", PyVal.str "A")])] := by
  have h1 : (2594 : ℚ) / 100 = mkRat 2594 100 := by
    rw [Rat.mkRat_eq_div]; norm_num
  have h2 : (4443 : ℚ) / 100 = mkRat 4443 100 := by
    rw [Rat.mkRat_eq_div]; norm_num
  rw [h1, h2]
  decide

/-- Claim C6 (confirmed).  The Calibration Grammar on
`"Mg ,Si : Other\Wakefield diopside (Mg : 349.7 cps/nA, Si : 559.4 cps/nA)"`
maps `Mg` and `Si` to `cal_file = "Other\Wakefield diopside"`, with cps
values 349.7 and 559.4. -/
theorem C6_parse_calibration_block :
    parse_calibration_block
        "Mg ,Si : Other\\Wakefield diopside (Mg : 349.7 cps/nA, Si : 559.4 cps/nA)" =
      PyVal.dict
        [(PyVal.str "Mg", PyVal.dict
          [(PyVal.str "cal_file", PyVal.str "Other\\Wakefield diopside"),
            (PyVal.str "cps_info", PyVal.num (PyNum.fin (3497 / 10)))]),
          (PyVal.str "Si", PyVal.dict
            [(PyVal.str "cal_file", PyVal.str "Other\\Wakefield diopside"),
              (PyVal.str "cps_info", PyVal.num (PyNum.fin (5594 / 10)))])] := by
  have h1 : (3497 : ℚ) / 10 = mkRat 3497 10 := by
    rw [Rat.mkRat_eq_div]; norm_num
  have h2 : (5594 : ℚ) / 10 = mkRat 5594 10 := by
    rw [Rat.mkRat_eq_div]; norm_num
  rw [h1, h2]
  decide

/-- Claim C7 (confirmed).  The Column-Condition Grammar on the block
`"Cond 1 : 15keV 10nA"` ⬝ `", Cond 2 : Al Ka, Ca Ka"` produces exactly
the conditions `Cond 1` and `Cond 2`, with `Cond 2`'s element list
`["Al Ka", "Ca Ka"]`, both elements reverse-mapped to `Cond 2`. -/
theorem C7_parse_column_conditions :
    keysP (condsOf (parse_column_conditions "Cond 1 : 15keV 10nA\n, Cond 2 : Al Ka, Ca Ka")) =
        [PyVal.str "Cond 1", PyVal.str "Cond 2"] ∧
    dGet? (condsOf (parse_column_conditions "Cond 1 : 15keV 10nA\n, Cond 2 : Al Ka, Ca Ka"))
        (PyVal.str "Cond 2") =
      some (PyVal.dict [(PyVal.str "desc", PyVal.str ""),
        (PyVal.str "elements", PyVal.list [PyVal.str "Al Ka", PyVal.str "Ca Ka"])]) ∧
    dGet? (e2cOf (parse_column_conditions "Cond 1 : 15keV 10nA\n, Cond 2 : Al Ka, Ca Ka"))
        (PyVal.str "Al Ka") = some (PyVal.str "Cond 2") ∧
    dGet? (e2cOf (parse_column_conditions "Cond 1 : 15keV 10nA\n, Cond 2 : Al Ka, Ca Ka"))
        (PyVal.str "Ca Ka") = some (PyVal.str "Cond 2") := by
  decide

/-- Claim C9 (confirmed).  The source defines `parse_calibration_block`
twice (lines 93–122 and 142–171, the second binding shadowing the
first); the two definition texts are byte-identical, so their embeddings
agree on every block. -/
theorem C9_duplicate_calibration_defs_agree (block : String) :
    parse_calibration_block_v1 block = parse_calibration_block block := rfl

/-- Claim C2, counterexample.  An indented key:value line *does* become
its own top-level SectionMap entry when no block is being collected:
on the single line `"  b : 2"` the segmenter records the entry
`("b", "2")`, refuting "otherwise it does not create a key in the
output map" (`KV_RE` tolerates leading whitespace via `^\s*`). -/
theorem C2_counterexample :
    split_section_lines ["  b : 2"] = [("b", "2")] := by decide

/-- Claim C3, counterexample.  For a directory whose only file has no
recognized extension (zero matching files), `walk_parse_and_export`
emits only `standard_by_element.csv` and `xtal_by_element.csv`; the
guard `if std_comp_rows:` suppresses `standard_compositions.csv`, so
three header-only tables are *not* emitted. -/
theorem C3_counterexample :
    (walkOutputs [("/d/readme.md", some ["x : y"])]).map Prod.fst =
      ["standard_by_element.csv", "xtal_by_element.csv"] := by decide

/-- Claim C4, counterexample.  When a raw section key equals a grammar's
synthetic key, the structured result *replaces* the raw entry: for the
file consisting of the line `"Standard composition parsed : x"`, the
SectionMap holds `("Standard composition parsed", "x")` but the record
maps that key to the (empty) composition result, not to `"x"`. -/
theorem C4_counterexample :
    ("Standard composition parsed", "x") ∈
        split_section_lines (headerOf ["Standard composition parsed : x"]) ∧
    dGetS? (parse_file ["Standard composition parsed : x"]) "Standard composition parsed" ≠
      some (PyVal.str "x") := by decide

/-- Claim C2, amended (the counterexample forces the "otherwise" clause to
be dropped).  An indented line is never *top-level*: while a block is
being collected it is appended verbatim to that block (the collection
loop only stops at top-level key:value lines or the table marker); but
when no block is being collected, an indented key:value line does create
a top-level entry under its trimmed key. -/
theorem C2_indented_kv (ℓ : String) (c : Char) (t : List Char)
    (hl : ℓ.toList = c :: t) (hc : c = ' ' ∨ c = '\t') :
    is_top_level_kv_line ℓ = false ∧
    (∀ rest, strStarts ℓ "DataSet/Point" = false →
      collectBlock (ℓ :: rest) = (ℓ :: (collectBlock rest).1, (collectBlock rest).2)) ∧
    (∀ k v, kvMatch ℓ = some (k, v) → v ≠ "" → split_section_lines [ℓ] = [(k, v)]) := by
  have h1 : is_top_level_kv_line ℓ = false := by
    have hd : ℓ.data = c :: t := hl
    rcases hc with rfl | rfl <;> simp [is_top_level_kv_line, hd]
  refine ⟨h1, ?_, ?_⟩
  · intro rest hds
    simp [collectBlock, h1, hds]
  · intro k v hkv hv
    simp [split_section_lines, sectionEvents, sectionEventsF, hkv, hv, alSet]

/-- Claim C2, witness: the amended statement at the indented line
`"  b : 2"`. -/
theorem C2_indented_kv_witness :
    is_top_level_kv_line "  b : 2" = false ∧
    collectBlock ["  b : 2", "Next : 1"] = (["  b : 2"], ["Next : 1"]) ∧
    split_section_lines ["  b : 2"] = [("b", "2")] := by
  have h := C2_indented_kv "  b : 2" ' ' " b : 2".toList (by decide) (Or.inl rfl)
  refine ⟨h.1, ?_, h.2.2 "b" "2" (by decide) (by decide)⟩
  rw [h.2.1 ["Next : 1"] (by decide)]
  decide

/-- Helper: the walk step ignores files without a recognized
extension. -/
theorem walkStep_skip (acc : List (String × List (PyVal × PyVal)))
    (f : String × Option (List String)) (h : recognizedExt f.1 = false) :
    walkStep acc f = acc := by
  simp [walkStep, h]

/-- Helper: the walk step ignores files whose parse raises. -/
theorem walkStep_failed (acc : List (String × List (PyVal × PyVal))) (p : String) :
    walkStep acc (p, Option.none) = acc := by
  by_cases h : recognizedExt p = true <;> simp [walkStep, h]

/-- Helper: with no recognized file, `parsed_by_file` is empty. -/
theorem walkParsedByFile_all_unrecognized :
    ∀ l : List (String × Option (List String)),
      (∀ f ∈ l, recognizedExt f.1 = false) → walkParsedByFile l = [] := by
  have key : ∀ (l : List (String × Option (List String)))
      (acc : List (String × List (PyVal × PyVal))),
      (∀ f ∈ l, recognizedExt f.1 = false) → l.foldl walkStep acc = acc := by
    intro l
    induction l with
    | nil => intro acc _; rfl
    | cons f fs ih =>
      intro acc h
      rw [List.foldl_cons, walkStep_skip acc f (h f (List.mem_cons_self f fs))]
      exact ih acc (fun g hg => h g (List.mem_cons_of_mem f hg))
  intro l h
  exact key l [] h

/-- Claim C3, amended (the counterexample forces dropping the third
table).  For every directory whose files all lack a recognized
extension, the walk completes and emits exactly the two wide tables
`standard_by_element` and `xtal_by_element` as well-formed header-only
tables; `standard_compositions` is omitted because it has no rows. -/
theorem C3_empty_dir_outputs (files : List (String × Option (List String)))
    (h : ∀ f ∈ files, recognizedExt f.1 = false) :
    walkOutputs files =
      [("standard_by_element.csv", Table.mk ["file"] []),
        ("xtal_by_element.csv", Table.mk ["file"] [])] := by
  unfold walkOutputs
  rw [walkParsedByFile_all_unrecognized files h]
  decide

/-- Claim C3, witness: the amended statement at a directory holding one
unrecognized file. -/
theorem C3_empty_dir_outputs_witness :
    walkOutputs [("/d/notes.csv", some ["a : 1"])] =
      [("standard_by_element.csv", Table.mk ["file"] []),
        ("xtal_by_element.csv", Table.mk ["file"] [])] :=
  C3_empty_dir_outputs [("/d/notes.csv", some ["a : 1"])] (by decide)

/-- Helper: key membership after a dict assignment. -/
theorem mem_keysP_pdSet (d : List (PyVal × PyVal)) (k v k' : PyVal) :
    k' ∈ keysP (pdSet d k v) ↔ k' ∈ keysP d ∨ k' = k := by
  induction d with
  | nil => simp [pdSet, keysP]
  | cons kv tl ih =>
    by_cases h : kv.1 = k
    · simp only [pdSet, h, if_true, keysP, List.map_cons, List.mem_cons]
      rw [← h]
      constructor
      · rintro (rfl | hm)
        · exact Or.inr rfl
        · exact Or.inl (Or.inr hm)
      · rintro ((rfl | hm) | rfl)
        · exact Or.inl rfl
        · exact Or.inr hm
        · rw [h]; exact Or.inl rfl
    · simp only [pdSet, h, if_false, keysP, List.map_cons, List.mem_cons] at *
      rw [ih]
      tauto

/-- Helper: the key list after an ordered section-map assignment. -/
theorem alSet_keys (d : List (String × String)) (k v : String) :
    (alSet d k v).map Prod.fst =
      if k ∈ d.map Prod.fst then d.map Prod.fst else d.map Prod.fst ++ [k] := by
  induction d with
  | nil => simp [alSet]
  | cons kv tl ih =>
    by_cases h : kv.1 = k
    · simp [alSet, h, List.mem_cons]
    · by_cases hm : k ∈ tl.map Prod.fst <;>
        simp [alSet, h, ih, hm, List.mem_cons, Ne.symm h]

/-- Helper: ordered assignment preserves distinctness of keys. -/
theorem alSet_keys_nodup (d : List (String × String)) (k v : String)
    (h : (d.map Prod.fst).Nodup) : ((alSet d k v).map Prod.fst).Nodup := by
  rw [alSet_keys]
  by_cases hm : k ∈ d.map Prod.fst
  · simpa [hm] using h
  · simp only [hm, if_false]
    rw [List.nodup_append]
    refine ⟨h, List.nodup_singleton k, fun a ha hak => ?_⟩
    rw [List.mem_singleton] at hak
    subst hak
    exact hm ha

/-- Helper: the section map always has distinct keys. -/
theorem split_section_lines_keys_nodup (lines : List String) :
    ((split_section_lines lines).map Prod.fst).Nodup := by
  unfold split_section_lines
  generalize sectionEvents lines = evs
  have key : ∀ (e : List (String × String)) (acc : List (String × String)),
      (acc.map Prod.fst).Nodup →
      ((e.foldl (fun d kv => alSet d kv.1 kv.2) acc).map Prod.fst).Nodup := by
    intro e
    induction e with
    | nil => intro acc h; exact h
    | cons x xs ih =>
      intro acc h
      rw [List.foldl_cons]
      exact ih _ (alSet_keys_nodup acc x.1 x.2 h)
  exact key evs [] (by simp)

/-- Helper: looking a section key up in the raw part of the record. -/
theorem dGet?_rawRecord (sections : List (String × String)) (k v : String)
    (hnd : (sections.map Prod.fst).Nodup) (hm : (k, v) ∈ sections) :
    dGet? (sections.map (fun kv => (PyVal.str kv.1, PyVal.str kv.2))) (PyVal.str k) =
      some (PyVal.str v) := by
  induction sections with
  | nil => cases hm
  | cons kv tl ih =>
    rw [List.map_cons, dGet?_cons]
    rcases List.mem_cons.mp hm with heq | hmem
    · rw [← heq]
      simp
    · by_cases hk : kv.1 = k
      · exfalso
        have : k ∈ tl.map Prod.fst := List.mem_map.mpr ⟨(k, v), hmem, rfl⟩
        rw [List.map_cons, List.nodup_cons] at hnd
        exact hnd.1 (hk ▸ this)
      · have : ¬ (PyVal.str kv.1 = PyVal.str k) := fun hc => hk (PyVal.str.inj hc)
        simp only [this, if_false]
        exact ih (List.nodup_cons.mp (by simpa [List.map_cons] using hnd)).2 hmem

/-- Helper: the grammar passes do not touch keys other than the
synthetic ones. -/
theorem applyGrammars_get_ne (sec : List (String × String)) (k : PyVal) :
    ∀ gs : List Grammar, (∀ g ∈ gs, k ≠ PyVal.str g.synthKey) →
      ∀ d, dGet? (applyGrammars gs sec d) k = dGet? d k := by
  intro gs
  induction gs with
  | nil => intro _ d; rfl
  | cons g gs ih =>
    intro h d
    have hg : k ≠ PyVal.str g.synthKey := h g (List.mem_cons_self g gs)
    have hgs : ∀ g' ∈ gs, k ≠ PyVal.str g'.synthKey :=
      fun g' hg' => h g' (List.mem_cons_of_mem g hg')
    unfold applyGrammars
    rw [List.foldl_cons]
    cases hf : sec.find? (fun kv => strStarts (strLower kv.1) g.keyStart) with
    | none =>
      simp only [hf]
      exact ih hgs d
    | some kv =>
      simp only [hf]
      have step := ih hgs (pdSet d (PyVal.str g.synthKey) (g.run kv.2))
      unfold applyGrammars at step
      rw [step]
      exact pdSet_get_ne d (PyVal.str g.synthKey) (g.run kv.2) k hg

/-- Helper: which keys the grammar passes add. -/
theorem mem_keysP_applyGrammars (sec : List (String × String)) (k : PyVal) :
    ∀ (gs : List Grammar) (d : List (PyVal × PyVal)),
      k ∈ keysP (applyGrammars gs sec d) ↔
        k ∈ keysP d ∨ ∃ g ∈ gs, k = PyVal.str g.synthKey ∧
          ∃ kv ∈ sec, strStarts (strLower kv.1) g.keyStart := by
  intro gs
  induction gs with
  | nil => intro d; simp [applyGrammars]
  | cons g gs ih =>
    intro d
    unfold applyGrammars
    rw [List.foldl_cons]
    cases hf : sec.find? (fun kv => strStarts (strLower kv.1) g.keyStart) with
    | none =>
      have hnone : ∀ kv ∈ sec, ¬ strStarts (strLower kv.1) g.keyStart := by
        intro kv hkv
        have := List.find?_eq_none.mp hf kv hkv
        simpa using this
      simp only [hf]
      have := ih d
      unfold applyGrammars at this
      rw [this]
      constructor
      · rintro (hd | ⟨g', hg', rest⟩)
        · exact Or.inl hd
        · exact Or.inr ⟨g', List.mem_cons_of_mem g hg', rest⟩
      · rintro (hd | ⟨g', hg', hkey, kv, hkv, hmatch⟩)
        · exact Or.inl hd
        · rcases List.mem_cons.mp hg' with rfl | hg'mem
          · exact absurd hmatch (hnone kv hkv)
          · exact Or.inr ⟨g', hg'mem, hkey, kv, hkv, hmatch⟩
    | some kv =>
      have hkvmem : kv ∈ sec := List.mem_of_find?_eq_some hf
      have hkvp : strStarts (strLower kv.1) g.keyStart := by
        have := List.find?_some hf
        simpa using this
      simp only [hf]
      have := ih (pdSet d (PyVal.str g.synthKey) (g.run kv.2))
      unfold applyGrammars at this
      rw [this, mem_keysP_pdSet]
      constructor
      · rintro ((hd | rfl) | ⟨g', hg', rest⟩)
        · exact Or.inl hd
        · exact Or.inr ⟨g, List.mem_cons_self g gs, rfl, kv, hkvmem, hkvp⟩
        · exact Or.inr ⟨g', List.mem_cons_of_mem g hg', rest⟩
      · rintro (hd | ⟨g', hg', hkey, kv', hkv', hmatch⟩)
        · exact Or.inl (Or.inl hd)
        · rcases List.mem_cons.mp hg' with rfl | hg'mem
          · exact Or.inl (Or.inr hkey)
          · exact Or.inr ⟨g', hg'mem, hkey, kv', hkv', hmatch⟩

/-- Claim C4, amended (the counterexample forces the proviso that no raw
section key collide with a synthetic key).  For every input file none of
whose section keys equals a grammar's synthetic key, the record contains
every SectionMap entry unchanged; it contains a grammar's fixed
synthetic key if and only if some section key's lower-cased form starts
with that grammar's recognized prefix; and no other keys are present.
(When a raw key does equal a synthetic key, the structured result
replaces the raw entry.) -/
theorem C4_record_frame (lines : List String)
    (hdisj : ∀ kv ∈ split_section_lines (headerOf lines),
      ¬ kv.1 ∈ grammars.map Grammar.synthKey) :
    (∀ k v, (k, v) ∈ split_section_lines (headerOf lines) →
      dGetS? (parse_file lines) k = some (PyVal.str v)) ∧
    (∀ g ∈ grammars,
      (PyVal.str g.synthKey ∈ keysP (parse_file lines) ↔
        ∃ kv ∈ split_section_lines (headerOf lines),
          strStarts (strLower kv.1) g.keyStart)) ∧
    (∀ pk ∈ keysP (parse_file lines),
      (∃ kv ∈ split_section_lines (headerOf lines), pk = PyVal.str kv.1) ∨
        ∃ g ∈ grammars, pk = PyVal.str g.synthKey) := by
  have hinj : ∀ g ∈ grammars, ∀ g' ∈ grammars,
      g.synthKey = g'.synthKey → g.keyStart = g'.keyStart := by decide
  have hbase : keysP ((split_section_lines (headerOf lines)).map
      (fun kv => (PyVal.str kv.1, PyVal.str kv.2))) =
      (split_section_lines (headerOf lines)).map (fun kv => PyVal.str kv.1) := by
    simp [keysP, List.map_map]
  refine ⟨?_, ?_, ?_⟩
  · intro k v hm
    have hk : ∀ g ∈ grammars, PyVal.str k ≠ PyVal.str g.synthKey := by
      intro g hg hc
      exact hdisj (k, v) hm (List.mem_map.mpr ⟨g, hg, (PyVal.str.inj hc).symm⟩)
    unfold parse_file dGetS?
    rw [applyGrammars_get_ne _ _ grammars hk]
    exact dGet?_rawRecord _ k v (split_section_lines_keys_nodup _) hm
  · intro g hg
    unfold parse_file
    rw [mem_keysP_applyGrammars, hbase]
    constructor
    · rintro (hb | ⟨g', hg', hkey, kv, hkv, hmatch⟩)
      · exfalso
        rcases List.mem_map.mp hb with ⟨kv, hkv, hkeq⟩
        exact hdisj kv hkv (List.mem_map.mpr ⟨g, hg, (PyVal.str.inj hkeq).symm⟩)
      · have : g.keyStart = g'.keyStart :=
          hinj g hg g' hg' (PyVal.str.inj hkey)
        exact ⟨kv, hkv, this ▸ hmatch⟩
    · rintro ⟨kv, hkv, hmatch⟩
      exact Or.inr ⟨g, hg, rfl, kv, hkv, hmatch⟩
  · intro pk hpk
    unfold parse_file at hpk
    rw [mem_keysP_applyGrammars, hbase] at hpk
    rcases hpk with hb | ⟨g, hg, hkey, _, _, _⟩
    · rcases List.mem_map.mp hb with ⟨kv, hkv, hkeq⟩
      exact Or.inl ⟨kv, hkv, hkeq.symm⟩
    · exact Or.inr ⟨g, hg, hkey⟩

/-- Claim C4, witness: the amended statement at the file
`["A : 1", "Standard Name :", "Fe On R"]`. -/
theorem C4_record_frame_witness :
    dGetS? (parse_file ["A : 1", "Standard Name :", "Fe On R"]) "A" =
      some (PyVal.str "1") ∧
    (PyVal.str "Standard Name parsed" ∈
        keysP (parse_file ["A : 1", "Standard Name :", "Fe On R"]) ↔
      ∃ kv ∈ split_section_lines (headerOf ["A : 1", "Standard Name :", "Fe On R"]),
        strStarts (strLower kv.1) "standard name") ∧
    (∀ pk ∈ keysP (parse_file ["A : 1", "Standard Name :", "Fe On R"]),
      (∃ kv ∈ split_section_lines (headerOf ["A : 1", "Standard Name :", "Fe On R"]),
        pk = PyVal.str kv.1) ∨
        ∃ g ∈ grammars, pk = PyVal.str g.synthKey) := by
  have h := C4_record_frame ["A : 1", "Standard Name :", "Fe On R"] (by decide)
  refine ⟨h.1 "A" "1" (by decide), ?_, h.2.2⟩
  exact h.2.1 ⟨"standard name", "Standard Name parsed", parse_standard_name_block⟩
    (List.mem_cons_of_mem _ (List.mem_cons_of_mem _ (List.mem_cons_of_mem _
      (List.mem_cons_self _ _))))

/-- Claim C8 (confirmed).  The grammars are total functions of the block
string (no error propagates to the caller — the embedding returns a
plain value on every input); in the Composition Grammar a component
whose (percent-stripped) value does not parse as a float stores the
retained raw string, and a line without `=` is skipped; in the
Calibration Grammar a cps value that does not parse stores the raw
string, and a line without a colon is skipped; in directory mode a file
whose parse raises is reported by name and skipped without affecting the
rest of the batch. -/
theorem C8_error_handling :
    (∀ st ln, splitFirstL '=' (pstrip ln).toList = Option.none → compLine st ln = st) ∧
    (∀ name st part el val0, compPartSplit part = some (el, val0) →
      pyFloat? (compValText val0) = Option.none →
      compPart name st part =
        (pdSet st.1 (PyVal.str el) (PyVal.str (compValText val0)),
          pdSet st.2 (PyVal.str el) (PyVal.str name))) ∧
    (∀ cps part l r, splitFirstL ':' part.toList = some (l, r) →
      pyFloat? (keepNumChars (String.mk (pstripL r))) = Option.none →
      calInsidePart cps part =
        pdSet cps (PyVal.str (String.mk (pstripL l))) (PyVal.str (String.mk (pstripL r)))) ∧
    (∀ out ln, splitFirstL ':' (pstrip ln).toList = Option.none → calLine out ln = out) ∧
    (∀ pre post p, walkParsedByFile (pre ++ (p, Option.none) :: post) =
      walkParsedByFile (pre ++ post)) ∧
    (∀ pre post p, recognizedExt p = true →
      p ∈ walkFailures (pre ++ (p, Option.none) :: post)) := by
  refine ⟨?_, ?_, ?_, ?_, ?_, ?_⟩
  · intro st ln h
    have hd : splitFirstL '=' (pstrip ln).data = Option.none := h
    by_cases hln : pstrip ln = "" <;> simp [compLine, hln, hd]
  · intro name st part el val0 h1 h2
    simp [compPart, h1, h2]
  · intro cps part l r h1 h2
    have hd1 : splitFirstL ':' part.data = some (l, r) := h1
    simp [calInsidePart, hd1, h2]
  · intro out ln h
    have hd : splitFirstL ':' (pstrip ln).data = Option.none := h
    by_cases hln : pstrip ln = "" <;> simp [calLine, hln, hd]
  · intro pre post p
    unfold walkParsedByFile
    rw [List.foldl_append, List.foldl_append, List.foldl_cons, walkStep_failed]
  · intro pre post p hp
    unfold walkFailures
    rw [List.mem_filterMap]
    exact ⟨(p, Option.none), by simp, by simp [hp]⟩

/-- Claim C8, witness: the fallbacks at concrete inputs — a composition
line with no `=`, a component `Si : abc%` whose value is not numeric, a
cps pair `Mg : ???`, a calibration line with no colon, and a batch in
which the middle file fails to parse. -/
theorem C8_error_handling_witness :
    compLine ([], []) "no equals sign here" = ([], []) ∧
    compPart "A" ([], []) "Si : abc%" =
      (pdSet [] (PyVal.str "Si") (PyVal.str (compValText "abc%")),
        pdSet [] (PyVal.str "Si") (PyVal.str "A")) ∧
    calInsidePart [] "Mg : ???" =
      pdSet [] (PyVal.str (String.mk (pstripL "Mg ".toList)))
        (PyVal.str (String.mk (pstripL " ???".toList))) ∧
    calLine [] "no colon" = [] ∧
    walkParsedByFile ([("/d/a.txt", some ["K : 1"])] ++ ("/d/bad.txt", Option.none) :: []) =
      walkParsedByFile ([("/d/a.txt", some ["K : 1"])] ++ []) ∧
    "/d/bad.txt" ∈ walkFailures ([("/d/a.txt", some ["K : 1"])] ++ ("/d/bad.txt", Option.none) :: []) := by
  refine ⟨?_, ?_, ?_, ?_, ?_, ?_⟩
  · exact C8_error_handling.1 ([], []) "no equals sign here" (by decide)
  · exact C8_error_handling.2.1 "A" ([], []) "Si : abc%" "Si" "abc%" (by decide) (by decide)
  · exact C8_error_handling.2.2.1 [] "Mg : ???" "Mg ".toList " ???".toList (by decide) (by decide)
  · exact C8_error_handling.2.2.2.1 [] "no colon" (by decide)
  · exact C8_error_handling.2.2.2.2.1 [("/d/a.txt", some ["K : 1"])] [] "/d/bad.txt"
  · exact C8_error_handling.2.2.2.2.2 [("/d/a.txt", some ["K : 1"])] [] "/d/bad.txt" (by decide)

/-- Helper: a line starting with a comma cannot match the anchored
`Cond N :` pattern. -/
theorem condMatch_of_comma (ln : String) (h : strStarts ln "," = true) :
    condMatch ln = Option.none := by
  have hl : ∃ t, ln.data = ',' :: t := by
    cases hd : ln.data with
    | nil =>
      rw [strStarts] at h
      have : ln.toList = [] := hd
      rw [this] at h
      simp [List.isPrefixOf] at h
    | cons b bs =>
      rw [strStarts] at h
      have hdt : ln.toList = b :: bs := hd
      rw [hdt] at h
      simp [List.isPrefixOf] at h
      subst h
      exact ⟨bs, rfl⟩
  obtain ⟨t, ht⟩ := hl
  have hfalse : decide (charLower ',' = 'c') = false := by decide
  match t, ht with
  | [], ht => simp [condMatch, ht]
  | [a], ht => simp [condMatch, ht]
  | [a, b], ht => simp [condMatch, ht]
  | a :: b :: c :: u, ht => simp [condMatch, ht, hfalse]

/-- Helper: `condExtend` keeps (and, at the null key, at most extends)
the canonical entry stored under the null key. -/
theorem condExtend_pynone (conds : List (PyVal × PyVal)) (key : PyVal)
    (elems : List String) (d : String) (el0 : List PyVal)
    (h : dGet? conds PyVal.pynone = some (condInfo d el0)) :
    ∃ es, dGet? (condExtend conds key elems) PyVal.pynone =
      some (condInfo d (el0 ++ es)) := by
  by_cases hk : key = PyVal.pynone
  · subst hk
    refine ⟨elems.map PyVal.str, ?_⟩
    rw [condExtend]
    rw [show dGet? conds PyVal.pynone =
      some (PyVal.dict [(PyVal.str "desc", PyVal.str d),
        (PyVal.str "elements", PyVal.list el0)]) from h]
    simp only []
    have hcur : dGet? [(PyVal.str "desc", PyVal.str d),
        (PyVal.str "elements", PyVal.list el0)] (PyVal.str "elements") =
        some (PyVal.list el0) := by
      rw [dGet?_cons, dGet?_cons]
      simp
    rw [hcur]
    simp only [pdSet]
    simp [pdSet_get_self, condInfo]
  · refine ⟨[], ?_⟩
    rw [List.append_nil]
    rw [condExtend]
    cases hg : dGet? conds key with
    | none =>
      exact dGet?_append_some _ _ _ _ h
    | some v =>
      cases v with
      | dict info => simpa using (pdSet_get_ne conds key _ PyVal.pynone (fun hc => hk hc.symm)).trans h
      | str s => exact h
      | num n => exact h
      | pynone => exact h
      | list xs => exact h

/-- Helper: one findall step keeps the null-key entry (its key is a
`Cond N` string). -/
theorem condFoundStep_pynone (st2 : CondSt) (p : String × String) (d : String)
    (el0 : List PyVal) (h : dGet? st2.conds PyVal.pynone = some (condInfo d el0)) :
    ∃ es, dGet? (condFoundStep st2 p).conds PyVal.pynone =
      some (condInfo d (el0 ++ es)) := by
  unfold condFoundStep
  exact condExtend_pynone st2.conds (PyVal.str ("Cond " ++ p.1)) _ d el0 h

/-- Helper: the findall loop keeps the null-key entry. -/
theorem foldl_condFoundStep_pynone (found : List (String × String)) :
    ∀ (st2 : CondSt) (d : String) (el0 : List PyVal),
      dGet? st2.conds PyVal.pynone = some (condInfo d el0) →
      ∃ es, dGet? ((found.foldl condFoundStep st2).conds) PyVal.pynone =
        some (condInfo d (el0 ++ es)) := by
  induction found with
  | nil => intro st2 d el0 h; exact ⟨[], by simpa using h⟩
  | cons p ps ih =>
    intro st2 d el0 h
    rw [List.foldl_cons]
    obtain ⟨es1, h1⟩ := condFoundStep_pynone st2 p d el0 h
    obtain ⟨es2, h2⟩ := ih (condFoundStep st2 p) d (el0 ++ es1) h1
    exact ⟨es1 ++ es2, by rw [h2, List.append_assoc]⟩

/-- Helper: the findall/continuation part keeps the null-key entry,
possibly extending its element list. -/
theorem condLineRest_pynone (st1 : CondSt) (ln : String) (d : String) (el0 : List PyVal)
    (h : dGet? st1.conds PyVal.pynone = some (condInfo d el0)) :
    ∃ es, dGet? ((condLineRest st1 ln).conds) PyVal.pynone =
      some (condInfo d (el0 ++ es)) := by
  unfold condLineRest
  cases hf : condFindall ln with
  | nil =>
    simp only []
    by_cases hcont : (strStarts ln "," ||
        (!(strStarts (strLower ln) "cond") && pyTruthy st1.last)) = true
    · rw [if_pos hcont]
      exact condExtend_pynone st1.conds st1.last (contElems ln) d el0 h
    · rw [if_neg hcont]
      exact ⟨[], by simpa using h⟩
  | cons p ps =>
    simp only []
    exact foldl_condFoundStep_pynone (p :: ps) st1 d el0 h

/-- Helper: the description match keeps the null-key entry unchanged. -/
theorem condLineDesc_pynone (st : CondSt) (ln : String) (d : String) (el0 : List PyVal)
    (h : dGet? st.conds PyVal.pynone = some (condInfo d el0)) :
    dGet? ((condLineDesc st ln).conds) PyVal.pynone = some (condInfo d el0) := by
  unfold condLineDesc
  cases hm : condMatch ln with
  | none => exact h
  | some r =>
    obtain ⟨num, g2⟩ := r
    simp only []
    rw [pdSetdefault_get_ne _ _ _ _ (fun hc => PyVal.noConfusion hc)]
    exact h

/-- Helper: processing any further line keeps the null-key entry,
possibly extending its element list. -/
theorem condLine_pynone (st : CondSt) (ln : String) (d : String) (el0 : List PyVal)
    (h : dGet? st.conds PyVal.pynone = some (condInfo d el0)) :
    ∃ es, dGet? ((condLine st ln).conds) PyVal.pynone = some (condInfo d (el0 ++ es)) := by
  unfold condLine
  exact condLineRest_pynone _ ln d el0 (condLineDesc_pynone st ln d el0 h)

/-- Helper: the remaining lines keep the null-key entry, possibly
extending its element list. -/
theorem condLines_fold_pynone (ls : List String) :
    ∀ (st : CondSt) (d : String) (el0 : List PyVal),
      dGet? st.conds PyVal.pynone = some (condInfo d el0) →
      ∃ es, dGet? ((ls.foldl condLine st).conds) PyVal.pynone =
        some (condInfo d (el0 ++ es)) := by
  induction ls with
  | nil => intro st d el0 h; exact ⟨[], by simpa using h⟩
  | cons ln ls ih =>
    intro st d el0 h
    rw [List.foldl_cons]
    obtain ⟨es1, h1⟩ := condLine_pynone st ln d el0 h
    obtain ⟨es2, h2⟩ := ih (condLine st ln) d (el0 ++ es1) h1
    exact ⟨es1 ++ es2, by rw [h2, List.append_assoc]⟩

/-- Claim C10, amended (the counterexample forces restricting the
reverse-map clause).  If a column-conditions block's first non-blank
line starts with a comma and holds no `Cond N :` reference (so no
condition has been seen yet), `parse_column_conditions` records that
line's comma-separated tokens at the start of the elements list stored
under the null condition key (`None`, not a `"Cond N"` string) in the
`conds` map; and when that line is the block's only non-blank line,
`element_to_condition` maps each such token to the null key (a later
line may reassign a token's entry). -/
theorem C10_null_condition (block ln : String) (rest : List String)
    (hls : condBlockLines block = ln :: rest)
    (hc : strStarts ln "," = true)
    (hnf : condFindall ln = []) :
    (∃ es, dGet? (condsOf (parse_column_conditions block)) PyVal.pynone =
      some (condInfo "" ((contElems ln).map PyVal.str ++ es))) ∧
    (rest = [] →
      dGet? (condsOf (parse_column_conditions block)) PyVal.pynone =
        some (condInfo "" ((contElems ln).map PyVal.str)) ∧
      ∀ t ∈ contElems ln,
        dGet? (e2cOf (parse_column_conditions block)) (PyVal.str t) =
          some PyVal.pynone) := by
  have hb : block ≠ "" := by
    intro h0
    rw [h0] at hls
    simp [condBlockLines, pySplitlines] at hls
  have hpc : parse_column_conditions block =
      PyVal.dict [(PyVal.str "conds",
          PyVal.dict (((ln :: rest).foldl condLine (CondSt.mk [] [] PyVal.pynone)).conds)),
        (PyVal.str "element_to_condition",
          PyVal.dict (((ln :: rest).foldl condLine (CondSt.mk [] [] PyVal.pynone)).e2c))] := by
    unfold parse_column_conditions
    rw [if_neg hb, hls]
  have hcondsOf : condsOf (parse_column_conditions block) =
      ((ln :: rest).foldl condLine (CondSt.mk [] [] PyVal.pynone)).conds := by
    rw [hpc]; rfl
  have he2cOf : e2cOf (parse_column_conditions block) =
      ((ln :: rest).foldl condLine (CondSt.mk [] [] PyVal.pynone)).e2c := by
    rw [hpc]; rfl
  have hfirst : condLine (CondSt.mk [] [] PyVal.pynone) ln =
      CondSt.mk [(PyVal.pynone, condInfo "" ((contElems ln).map PyVal.str))]
        ((contElems ln).foldl (fun m e => pdSet m (PyVal.str e) PyVal.pynone) [])
        PyVal.pynone := by
    unfold condLine condLineDesc condLineRest
    rw [condMatch_of_comma ln hc, hnf]
    simp [hc, condExtend, dGet?_nil, condInfo]
  obtain ⟨es, hes⟩ := condLines_fold_pynone rest (condLine (CondSt.mk [] [] PyVal.pynone) ln)
    "" ((contElems ln).map PyVal.str) (by rw [hfirst]; simp [dGet?_cons])
  refine ⟨⟨es, ?_⟩, ?_⟩
  · rw [hcondsOf, List.foldl_cons]
    exact hes
  · intro hrest
    subst hrest
    constructor
    · rw [hcondsOf, List.foldl_cons]
      simp only [List.foldl_nil]
      rw [hfirst]
      simp [dGet?_cons]
    · intro t ht
      rw [he2cOf, List.foldl_cons]
      simp only [List.foldl_nil]
      rw [hfirst]
      rw [fold_pdSet_const_get]
      simp [ht]

/-- Claim C10, witness: the amended statement at the single-line block
`", X"`. -/
theorem C10_null_condition_witness :
    (∃ es, dGet? (condsOf (parse_column_conditions ", X")) PyVal.pynone =
      some (condInfo "" ((contElems ", X").map PyVal.str ++ es))) ∧
    (([] : List String) = [] →
      dGet? (condsOf (parse_column_conditions ", X")) PyVal.pynone =
        some (condInfo "" ((contElems ", X").map PyVal.str)) ∧
      ∀ t ∈ contElems ", X",
        dGet? (e2cOf (parse_column_conditions ", X")) (PyVal.str t) =
          some PyVal.pynone) :=
  C10_null_condition ", X" ", X" [] (by decide) (by decide) (by decide)

/-- Claim C10, counterexample.  On the block `", X"` ⬝ `"Cond 1 : X"` the
first non-blank line starts with a comma and holds no Cond reference, so
its token `X` is recorded under the null key; but the second line
reassigns `element_to_condition["X"]` to `Cond 1`, refuting
"element_to_condition maps each such token to that null key". -/
theorem C10_counterexample :
    condBlockLines ", X\nCond 1 : X" = [", X", "Cond 1 : X"] ∧
    strStarts ", X" "," = true ∧
    condFindall ", X" = [] ∧
    contElems ", X" = ["X"] ∧
    dGet? (e2cOf (parse_column_conditions ", X\nCond 1 : X")) (PyVal.str "X") =
      some (PyVal.str "Cond 1") := by decide

end EMPA
